import Mathlib

/-!
Verification development for the vibe-runner server core: the deterministic
chunk generator (`server/generation/chunk.go`), the chunk cache/manager
(`generation/manager.go`), the player state machine (`server/game/player.go`),
the fixed-tick physics step (`server/game/ticker.go`), and the broadcast
fan-out hub (`network` hub).

Modelling conventions:
- Go `float64` values are modelled as exact rationals (`ℚ`); all arithmetic
  performed by the code on them is affine with small constants, and none of
  the proved or refuted properties is sensitive to rounding at the scale of
  the values involved.
- Go `int` is modelled as `ℤ`.  Go's float-to-int conversion truncates toward
  zero, modelled by `goTrunc`.
- The standard library PRNG (`math/rand`) is not part of this repository's
  sources; its call boundary (`rng.Intn`, `rng.Float64`) is modelled as a
  tape of draws (`RandTape`), one entry per successive call, together with
  the documented contract of those calls (`RandTape.Ok`): `Intn n` returns a
  value in `[0, n)` and `Float64` returns a value in `[0, 1)`.  `GenerateChunk`
  makes its calls in a fixed order, so a tape determines the run completely;
  the seed derivation (SHA-256 of `masterSeed + "-" + chunkID`, feeding
  `rand.NewSource`) is a pure function of `(masterSeed, chunkID)`, modelled
  by an arbitrary tape family `tapeOf : String → ℤ → RandTape`.
- Mutex-protected state is modelled by explicit state passing; the Go methods
  run their bodies atomically under the manager/hub lock.
-/

/-- Tape of PRNG draws: `intn k` is the result of the `k`-th `rng.Intn` call
and `float k` the result of the `k`-th `rng.Float64` call made by
`GenerateChunk`. -/
structure RandTape where
  intn : ℕ → ℕ
  float : ℕ → ℚ

/-- Contract of the PRNG at the calls `GenerateChunk` makes: the first `Intn`
call has bound 6 (`MaxObstaclesPerChunk - MinObstaclesPerChunk + 1`), all
later ones have bound 3, and every `Float64` result lies in `[0, 1)`. -/
def RandTape.Ok (t : RandTape) : Prop :=
  t.intn 0 < 6 ∧ (∀ k, 1 ≤ k → t.intn k < 3) ∧ (∀ k, 0 ≤ t.float k ∧ t.float k < 1)

/-- ChunkSize is the width of each chunk in pixels (from `chunk.go`). -/
def ChunkSize : ℚ := 5000

/-- MinObstaclesPerChunk is the minimum number of obstacles in a chunk. -/
def MinObstaclesPerChunk : ℕ := 3

/-- MaxObstaclesPerChunk is the maximum number of obstacles in a chunk. -/
def MaxObstaclesPerChunk : ℕ := 8

/-- ObstacleSpacing is the documented minimum spacing between obstacles. -/
def ObstacleSpacing : ℚ := 300

/-- ObstacleTypeTall: the tall "firewall" obstacle variant. -/
def ObstacleTypeTall : ℤ := 1

/-- ObstacleTypeLow: the low "data-block" obstacle variant. -/
def ObstacleTypeLow : ℤ := 2

/-- ObstacleTypeSpike: the "glitch" spike obstacle variant. -/
def ObstacleTypeSpike : ℤ := 3

/-- Obstacle mirrors `generation.Obstacle`: a type tag (1, 2 or 3) and a
world position. -/
structure Obstacle where
  type : ℤ
  x : ℚ
  y : ℚ
deriving DecidableEq

/-- Chunk mirrors `generation.Chunk`. -/
structure Chunk where
  id : ℤ
  obstacles : List Obstacle
deriving DecidableEq

/-- Obstacle-placement loop of `GenerateChunk` (`chunk.go` lines 104-128).
`i` is the Go loop counter (used to index tape draws: the `(i+1)`-th `Intn`
call and the `2i`-th / `2i+1`-th `Float64` calls belong to iteration `i`),
`rem` is `obstacleCount - i`, and `currentX` is the placement cursor. -/
def genObstacles (tape : RandTape) (chunkEndX : ℚ) : ℕ → ℕ → ℚ → List Obstacle
  | _, 0, _ => []
  | i, rem + 1, currentX =>
    if currentX < chunkEndX - 500 then
      let obstacleType : ℤ := 1 + (tape.intn (i + 1) : ℤ)
      let xOffset := tape.float (2 * i) * 200
      let obstacleX := currentX + xOffset
      if chunkEndX ≤ obstacleX then
        []
      else
        { type := obstacleType, x := obstacleX, y := 0 } ::
          genObstacles tape chunkEndX (i + 1) rem
            (currentX + (ObstacleSpacing + tape.float (2 * i + 1) * 200))
    else
      []

/-- GenerateChunk mirrors `generation.GenerateChunk`, with the seeded PRNG
replaced by its tape of draws (see module comment). -/
def GenerateChunk (tape : RandTape) (chunkID : ℤ) : Chunk :=
  let obstacleCount := MinObstaclesPerChunk + tape.intn 0
  let chunkStartX : ℚ := (chunkID : ℚ) * ChunkSize
  let chunkEndX : ℚ := ((chunkID : ℚ) + 1) * ChunkSize
  { id := chunkID
    obstacles := genObstacles tape chunkEndX 0 obstacleCount (chunkStartX + 500) }

/-- Go's float-to-int conversion: truncation toward zero. -/
def goTrunc (q : ℚ) : ℤ := if 0 ≤ q then ⌊q⌋ else ⌈q⌉

/-- ChunkManager mirrors `generation.ChunkManager`: the master seed and the
cache of generated chunks (the Go map, modelled as an association list). -/
structure ChunkManager where
  masterSeed : String
  chunks : List (ℤ × Chunk)

/-- NewChunkManager mirrors `generation.NewChunkManager`: empty cache. -/
def NewChunkManager (masterSeed : String) : ChunkManager :=
  { masterSeed := masterSeed, chunks := [] }

/-- Lookup in the cache association list (the Go map read `cm.chunks[chunkID]`). -/
def lookupChunk : List (ℤ × Chunk) → ℤ → Option Chunk
  | [], _ => none
  | e :: es, k => if e.1 = k then some e.2 else lookupChunk es k

/-- GetOrGenerateChunk mirrors `ChunkManager.GetOrGenerateChunk`: return the
cached chunk, otherwise generate, cache and return it.  The double-checked
locking of the Go code collapses to a single check in this sequential model. -/
def GetOrGenerateChunk (tapeOf : String → ℤ → RandTape) (cm : ChunkManager)
    (chunkID : ℤ) : Chunk × ChunkManager :=
  match lookupChunk cm.chunks chunkID with
  | some chunk => (chunk, cm)
  | none =>
    let chunk := GenerateChunk (tapeOf cm.masterSeed chunkID) chunkID
    (chunk, { cm with chunks := (chunkID, chunk) :: cm.chunks })

/-- Inclusive integer range `[s, e]` as a list, ascending (the Go loop
`for chunkID := s; chunkID <= e; chunkID++`). -/
def idRange (s e : ℤ) : List ℤ :=
  (List.range (e - s + 1).toNat).map (fun (j : ℕ) => s + (j : ℤ))

/-- Sequential fold of `GetOrGenerateChunk` over a list of IDs, collecting the
returned chunks in order (the body of the `GetChunksInRange` loop). -/
def getChunksLoop (tapeOf : String → ℤ → RandTape) :
    List ℤ → ChunkManager → List Chunk × ChunkManager
  | [], cm => ([], cm)
  | k :: ks, cm =>
    let r := GetOrGenerateChunk tapeOf cm k
    let rest := getChunksLoop tapeOf ks r.2
    (r.1 :: rest.1, rest.2)

/-- GetChunksInRange mirrors `ChunkManager.GetChunksInRange`. -/
def GetChunksInRange (tapeOf : String → ℤ → RandTape) (cm : ChunkManager)
    (startX endX : ℚ) : List Chunk × ChunkManager :=
  if startX ≥ endX then ([], cm)
  else
    getChunksLoop tapeOf
      (idRange (goTrunc (startX / ChunkSize)) (goTrunc (endX / ChunkSize))) cm

/-- GenerateAheadForPlayer mirrors `ChunkManager.GenerateAheadForPlayer`
(`for i := 0; i <= chunksAhead; i++ { GetOrGenerateChunk(current + i) }`,
results discarded). -/
def GenerateAheadForPlayer (tapeOf : String → ℤ → RandTape) (cm : ChunkManager)
    (playerX : ℚ) (chunksAhead : ℤ) : ChunkManager :=
  let currentChunkID := goTrunc (playerX / ChunkSize)
  (getChunksLoop tapeOf (idRange currentChunkID (currentChunkID + chunksAhead)) cm).2

/-- CleanupBehind mirrors `ChunkManager.CleanupBehind`: drop every cached
chunk whose ID is below `trailingChunkID - keepBehind`. -/
def CleanupBehind (cm : ChunkManager) (minPlayerX : ℚ) (keepBehind : ℤ) :
    ChunkManager :=
  let cleanupThreshold := goTrunc (minPlayerX / ChunkSize) - keepBehind
  { cm with chunks := cm.chunks.filter (fun e => decide (cleanupThreshold ≤ e.1)) }

/-- GetAllChunks mirrors `ChunkManager.GetAllChunks` (a snapshot; read-only). -/
def GetAllChunks (cm : ChunkManager) : List Chunk :=
  cm.chunks.map (fun e => e.2)

/-- One public mutating operation on a chunk manager. -/
inductive MgrOp where
  | getOrGen (chunkID : ℤ)
  | getRange (startX endX : ℚ)
  | genAhead (playerX : ℚ) (chunksAhead : ℤ)
  | cleanup (minPlayerX : ℚ) (keepBehind : ℤ)

/-- State effect of one manager operation. -/
def applyMgrOp (tapeOf : String → ℤ → RandTape) (cm : ChunkManager) :
    MgrOp → ChunkManager
  | .getOrGen k => (GetOrGenerateChunk tapeOf cm k).2
  | .getRange s e => (GetChunksInRange tapeOf cm s e).2
  | .genAhead x n => GenerateAheadForPlayer tapeOf cm x n
  | .cleanup x k => CleanupBehind cm x k

/-- State after an arbitrary history of manager operations. -/
def applyMgrOps (tapeOf : String → ℤ → RandTape) (ops : List MgrOp)
    (cm : ChunkManager) : ChunkManager :=
  ops.foldl (applyMgrOp tapeOf) cm

/-- Gravity in pixels/second² (from `ticker.go`). -/
def Gravity : ℚ := 1200

/-- JumpVelocity: initial upward velocity when jumping (negative = upward). -/
def JumpVelocity : ℚ := -600

/-- GroundY: the Y coordinate of the ground. -/
def GroundY : ℚ := 440

/-- TickRate: server update frequency in Hz. -/
def TickRate : ℕ := 20

/-- DeltaTime: physics time step, `1.0 / float64(TickRate)`. -/
def DeltaTime : ℚ := 1 / (TickRate : ℚ)

/-- Player mirrors `game.Player`. -/
structure Player where
  id : ℤ
  name : String
  x : ℚ
  y : ℚ
  velocityY : ℚ
  isGrounded : Bool
  isAlive : Bool
deriving DecidableEq

/-- NewPlayer mirrors `game.NewPlayer`: spawn at (100, 440), zero velocity,
grounded, alive. -/
def NewPlayer (id : ℤ) (name : String) : Player :=
  { id := id, name := name, x := 100, y := 440, velocityY := 0,
    isGrounded := true, isAlive := true }

/-- Jump mirrors `(*Player).Jump`: only if grounded and alive, set
`VelocityY = -600` and `IsGrounded = false`. -/
def Player.jump (p : Player) : Player :=
  if p.isGrounded && p.isAlive then
    { p with velocityY := -600, isGrounded := false }
  else
    p

/-- Kill mirrors `(*Player).Kill`. -/
def Player.kill (p : Player) : Player :=
  { p with isAlive := false }

/-- updatePlayerPhysics mirrors `game.updatePlayerPhysics`: integrate gravity
into the velocity, integrate the position, then clamp to the ground. -/
def updatePlayerPhysics (p : Player) : Player :=
  let v := p.velocityY + Gravity * DeltaTime
  let y := p.y + v * DeltaTime
  if y ≥ GroundY then
    { p with y := GroundY, velocityY := 0, isGrounded := true }
  else
    { p with y := y, velocityY := v, isGrounded := false }

/-- One operation that can touch a player's state. -/
inductive PlayerOp where
  | physics
  | jump
  | kill

/-- Effect of one player operation. -/
def applyPlayerOp (p : Player) : PlayerOp → Player
  | .physics => updatePlayerPhysics p
  | .jump => p.jump
  | .kill => p.kill

/-- Player state after an arbitrary history of operations. -/
def applyPlayerOps (ops : List PlayerOp) (p : Player) : Player :=
  ops.foldl applyPlayerOp p

/-- Per-player body of the tick loop (`ticker.go` lines 118-134): dead
players are skipped (`continue`), alive ones get the physics update. -/
def tickOne (p : Player) : Player :=
  if p.isAlive then updatePlayerPhysics p else p

/-- One tick's physics pass over the player snapshot. -/
def tickStep (ps : List Player) : List Player :=
  ps.map tickOne

/-- PlayerState mirrors `network.PlayerState`: the per-player payload of a
`state` broadcast. -/
structure PlayerState where
  i : ℤ
  x : ℚ
  y : ℚ
deriving DecidableEq

/-- Player-list construction of `BroadcastState` (hub source): iterate the
snapshot and append an entry for each alive player. -/
def buildPlayerStates : List Player → List PlayerState
  | [] => []
  | p :: ps =>
    if p.isAlive then
      { i := p.id, x := p.x, y := p.y } :: buildPlayerStates ps
    else
      buildPlayerStates ps

/-- Capacity of each client's outbound queue (`make(chan []byte, 10)`). -/
def sendChanCapacity : ℕ := 10

/-- Non-blocking send of the hub's broadcast loop: `select { case ch <- msg:
... default: drop }` on a buffered channel appends when the buffer has room
and drops the message otherwise. -/
def trySend (msg : α) (q : List α) : List α :=
  if q.length < sendChanCapacity then q ++ [msg] else q

/-- Fan-out of `BroadcastState` / `BroadcastChunk`: the one encoded message
is try-sent to every registered client's queue. -/
def broadcastToClients (msg : α) (clients : List (ℤ × List α)) :
    List (ℤ × List α) :=
  clients.map (fun c => (c.1, trySend msg c.2))

/-- Extent of chunk `k`: the half-open interval `[k·ChunkSize, (k+1)·ChunkSize)`. -/
def chunkStartX (k : ℤ) : ℚ := (k : ℚ) * ChunkSize

/-- Right end of chunk `k`'s extent. -/
def chunkEndXOf (k : ℤ) : ℚ := ((k : ℚ) + 1) * ChunkSize

/-- Overlap of the half-open interval `[s, e)` with the half-open extent
`[a, b)` (from the spec's words for `GetRange`). -/
def OverlapsHalfOpen (s e a b : ℚ) : Prop :=
  ∃ x : ℚ, (s ≤ x ∧ x < e) ∧ (a ≤ x ∧ x < b)

/-- Overlap of the closed interval `[s, e]` with the half-open extent
`[a, b)` (the corrected overlap notion actually implemented). -/
def OverlapsClosed (s e a b : ℚ) : Prop :=
  ∃ x : ℚ, (s ≤ x ∧ x ≤ e) ∧ (a ≤ x ∧ x < b)

/-- All-zero PRNG tape, used to instantiate universally quantified theorems. -/
def tape0 : RandTape :=
  { intn := fun _ => 0, float := fun _ => 0 }

/-- Tape family returning `tape0` for every seed and index. -/
def tapeOf0 : String → ℤ → RandTape :=
  fun _ _ => tape0

/-- PRNG tape exhibiting the spacing violation: first obstacle offset 199 px,
all later draws 0. -/
def spacingTape : RandTape :=
  { intn := fun _ => 0, float := fun k => if k = 0 then 199 / 200 else 0 }

/-- Manager state reachable by an arbitrary operation history from
`NewChunkManager seed`. -/
def reachableManager (tapeOf : String → ℤ → RandTape) (seed : String)
    (ops : List MgrOp) : ChunkManager :=
  applyMgrOps tapeOf ops (NewChunkManager seed)

/-- Cache invariant of the chunk manager: every cached entry is exactly the
chunk `GenerateChunk` produces for its key under the manager's seed. -/
def MgrOk (tapeOf : String → ℤ → RandTape) (cm : ChunkManager) : Prop :=
  ∀ e ∈ cm.chunks, e.2 = GenerateChunk (tapeOf cm.masterSeed e.1) e.1

/-- Rest invariant of a player: while grounded, the vertical velocity is the
rest value 0. -/
def GroundedRest (p : Player) : Prop :=
  p.isGrounded = true → p.velocityY = 0

/-! ### Lemmas about the obstacle-placement loop -/

/-- The loop never emits more obstacles than its iteration budget. -/
lemma genObstacles_length_le (tape : RandTape) (e : ℚ) :
    ∀ (rem i : ℕ) (c : ℚ), (genObstacles tape e i rem c).length ≤ rem := by
  intro rem
  induction rem with
  | zero => intro i c; simp [genObstacles]
  | succ rem ih =>
    intro i c
    simp only [genObstacles]
    split
    · split
      · simp
      · simpa using ih (i + 1) _
    · simp

/-- While the cursor is at least `500 · n` short of the trailing margin, the
loop emits at least `n + 1` further obstacles (given at least that many
iterations remain): each iteration advances the cursor by strictly less than
500 and the in-chunk break can only fire within 200 of the chunk end. -/
lemma genObstacles_length_ge (tape : RandTape)
    (hf : ∀ k, 0 ≤ tape.float k ∧ tape.float k < 1) (e : ℚ) :
    ∀ (n i rem : ℕ) (c : ℚ), n + 1 ≤ rem → c + 500 * (n : ℚ) < e - 500 →
      n + 1 ≤ (genObstacles tape e i rem c).length := by
  intro n
  induction n with
  | zero =>
    intro i rem c hrem hc
    match rem, hrem with
    | rem + 1, _ =>
      have hc' : c < e - 500 := by simpa using hc
      have hf2 := (hf (2 * i)).2
      have hnb : ¬ e ≤ c + tape.float (2 * i) * 200 := by nlinarith
      simp only [genObstacles, if_pos hc', if_neg hnb, List.length_cons]
      omega
  | succ n ih =>
    intro i rem c hrem hc
    match rem, hrem with
    | rem + 1, hrem =>
      have hn0 : (0 : ℚ) ≤ 500 * ((n : ℚ) + 1) := by positivity
      have hc' : c < e - 500 := by push_cast at hc; nlinarith
      have hf2 := (hf (2 * i)).2
      have hnb : ¬ e ≤ c + tape.float (2 * i) * 200 := by nlinarith
      simp only [genObstacles, if_pos hc', if_neg hnb, List.length_cons]
      have hrec := ih (i + 1) rem
        (c + (ObstacleSpacing + tape.float (2 * i + 1) * 200))
        (by omega) ?_
      · omega
      · have hj := hf (2 * i + 1)
        simp only [ObstacleSpacing]
        push_cast at hc ⊢
        nlinarith [hj.1, hj.2]

/-- Every obstacle the loop emits lies at or beyond the cursor position at
which the loop was entered, and strictly before the chunk end. -/
lemma genObstacles_mem_x (tape : RandTape)
    (hf : ∀ k, 0 ≤ tape.float k ∧ tape.float k < 1) (e : ℚ) :
    ∀ (rem i : ℕ) (c : ℚ), ∀ o ∈ genObstacles tape e i rem c,
      c ≤ o.x ∧ o.x < e := by
  intro rem
  induction rem with
  | zero => intro i c o ho; simp [genObstacles] at ho
  | succ rem ih =>
    intro i c o ho
    simp only [genObstacles] at ho
    by_cases hc : c < e - 500
    · rw [if_pos hc] at ho
      by_cases hb : e ≤ c + tape.float (2 * i) * 200
      · rw [if_pos hb] at ho
        simp at ho
      · rw [if_neg hb] at ho
        rcases List.mem_cons.1 ho with h | h
        · subst h
          dsimp only
          refine ⟨by nlinarith [(hf (2 * i)).1], by linarith [not_le.1 hb]⟩
        · have hrec := ih (i + 1) (c + (ObstacleSpacing + tape.float (2 * i + 1) * 200)) o h
          have hj := hf (2 * i + 1)
          refine ⟨?_, hrec.2⟩
          have : c ≤ c + (ObstacleSpacing + tape.float (2 * i + 1) * 200) := by
            simp only [ObstacleSpacing]; nlinarith [hj.1]
          linarith [hrec.1]
    · rw [if_neg hc] at ho
      simp at ho

/-- Every obstacle the loop emits carries one of the three enumerated type
tags. -/
lemma genObstacles_mem_type (tape : RandTape)
    (h3 : ∀ k, 1 ≤ k → tape.intn k < 3) (e : ℚ) :
    ∀ (rem i : ℕ) (c : ℚ), ∀ o ∈ genObstacles tape e i rem c,
      o.type = ObstacleTypeTall ∨ o.type = ObstacleTypeLow ∨
        o.type = ObstacleTypeSpike := by
  intro rem
  induction rem with
  | zero => intro i c o ho; simp [genObstacles] at ho
  | succ rem ih =>
    intro i c o ho
    simp only [genObstacles] at ho
    by_cases hc : c < e - 500
    · rw [if_pos hc] at ho
      by_cases hb : e ≤ c + tape.float (2 * i) * 200
      · rw [if_pos hb] at ho
        simp at ho
      · rw [if_neg hb] at ho
        rcases List.mem_cons.1 ho with h | h
        · subst h
          have := h3 (i + 1) (by omega)
          simp only [ObstacleTypeTall, ObstacleTypeLow, ObstacleTypeSpike]
          omega
        · exact ih (i + 1) _ o h
    · rw [if_neg hc] at ho
      simp at ho

/-- The chunk ID recorded in a generated chunk is the requested ID. -/
lemma generateChunk_id (tape : RandTape) (chunkID : ℤ) :
    (GenerateChunk tape chunkID).id = chunkID := rfl

/-- Claim C4: for every PRNG behaviour satisfying the library contract (hence
for every masterSeed) and every chunkID, the generated chunk holds between 3
and 8 obstacles, every obstacle X lies in
`[chunkID·ChunkSize, (chunkID+1)·ChunkSize)`, and every obstacle type is one
of the enumerated values 1, 2, 3. -/
theorem generateChunk_bounds (tape : RandTape) (hOk : tape.Ok) (chunkID : ℤ) :
    (MinObstaclesPerChunk ≤ (GenerateChunk tape chunkID).obstacles.length ∧
      (GenerateChunk tape chunkID).obstacles.length ≤ MaxObstaclesPerChunk) ∧
    (∀ o ∈ (GenerateChunk tape chunkID).obstacles,
      (chunkID : ℚ) * ChunkSize ≤ o.x ∧ o.x < ((chunkID : ℚ) + 1) * ChunkSize) ∧
    (∀ o ∈ (GenerateChunk tape chunkID).obstacles,
      o.type = ObstacleTypeTall ∨ o.type = ObstacleTypeLow ∨
        o.type = ObstacleTypeSpike) := by
  obtain ⟨h6, h3, hf⟩ := hOk
  simp only [GenerateChunk, MinObstaclesPerChunk, MaxObstaclesPerChunk]
  refine ⟨⟨?_, ?_⟩, ?_, ?_⟩
  · have := genObstacles_length_ge tape hf (((chunkID : ℚ) + 1) * ChunkSize) 2 0
      (3 + tape.intn 0) ((chunkID : ℚ) * ChunkSize + 500) (by omega) ?_
    · omega
    · simp only [ChunkSize]; push_cast; nlinarith [sq_nonneg (chunkID : ℚ)]
  · have := genObstacles_length_le tape (((chunkID : ℚ) + 1) * ChunkSize)
      (3 + tape.intn 0) 0 ((chunkID : ℚ) * ChunkSize + 500)
    omega
  · intro o ho
    have := genObstacles_mem_x tape hf (((chunkID : ℚ) + 1) * ChunkSize)
      (3 + tape.intn 0) 0 ((chunkID : ℚ) * ChunkSize + 500) o ho
    exact ⟨by linarith [this.1], this.2⟩
  · intro o ho
    exact genObstacles_mem_type tape h3 (((chunkID : ℚ) + 1) * ChunkSize)
      (3 + tape.intn 0) 0 ((chunkID : ℚ) * ChunkSize + 500) o ho

/-- Witness for `generateChunk_bounds`: the all-zero tape satisfies the PRNG
contract, and the theorem instantiates at it for chunk 2, where the generated
chunk concretely holds 3 obstacles. -/
theorem generateChunk_bounds_witness :
    tape0.Ok ∧ (GenerateChunk tape0 2).obstacles.length = 3 ∧
    ((MinObstaclesPerChunk ≤ (GenerateChunk tape0 2).obstacles.length ∧
      (GenerateChunk tape0 2).obstacles.length ≤ MaxObstaclesPerChunk) ∧
    (∀ o ∈ (GenerateChunk tape0 2).obstacles,
      (2 : ℚ) * ChunkSize ≤ o.x ∧ o.x < ((2 : ℚ) + 1) * ChunkSize) ∧
    (∀ o ∈ (GenerateChunk tape0 2).obstacles,
      o.type = ObstacleTypeTall ∨ o.type = ObstacleTypeLow ∨
        o.type = ObstacleTypeSpike)) := by
  have hOk : tape0.Ok :=
    ⟨by norm_num [tape0], fun k _ => by norm_num [tape0],
      fun k => by norm_num [tape0]⟩
  refine ⟨hOk, ?_, ?_⟩
  · norm_num [GenerateChunk, genObstacles, tape0, ChunkSize, ObstacleSpacing,
      MinObstaclesPerChunk]
  · have := generateChunk_bounds tape0 hOk 2
    push_cast at this ⊢
    exact this

/-- Claim C1 (refuted; code bug): a PRNG behaviour fully within the library
contract makes `GenerateChunk` place two consecutive obstacles (already
sorted by X) only 101 px apart, far below `ObstacleSpacing = 300`: the
per-obstacle X jitter of up to 200 px is added independently of the cursor
advance, so only a gap of more than `ObstacleSpacing - 200` is guaranteed. -/
theorem generateChunk_spacing_violation :
    spacingTape.Ok ∧
    (GenerateChunk spacingTape 0).obstacles.map Obstacle.x = [699, 800, 1100] ∧
    List.Sorted (· < ·) ((GenerateChunk spacingTape 0).obstacles.map Obstacle.x) ∧
    (800 : ℚ) - 699 < ObstacleSpacing := by
  have hmap : (GenerateChunk spacingTape 0).obstacles.map Obstacle.x
      = [699, 800, 1100] := by
    norm_num [GenerateChunk, genObstacles, spacingTape, ChunkSize,
      ObstacleSpacing, MinObstaclesPerChunk]
  refine ⟨⟨by norm_num [spacingTape], fun k _ => by norm_num [spacingTape],
    fun k => ?_⟩, hmap, ?_, by norm_num [ObstacleSpacing]⟩
  · by_cases h : k = 0 <;> norm_num [spacingTape, h]
  · rw [hmap]
    norm_num [List.sorted_cons]

/-! ### Lemmas about the chunk manager -/

/-- A successful cache lookup returns an entry of the cache list. -/
lemma lookupChunk_mem : ∀ {l : List (ℤ × Chunk)} {k : ℤ} {c : Chunk},
    lookupChunk l k = some c → (k, c) ∈ l := by
  intro l
  induction l with
  | nil => intro k c h; simp [lookupChunk] at h
  | cons e es ih =>
    intro k c h
    simp only [lookupChunk] at h
    split at h
    · rename_i heq
      obtain rfl := Option.some.inj h
      subst heq
      exact List.mem_cons_self _ _
    · exact List.mem_cons_of_mem _ (ih h)

/-- Under the cache invariant, `GetOrGenerateChunk` returns exactly the chunk
`GenerateChunk` produces for the manager's seed. -/
lemma getOrGenerateChunk_fst (tapeOf : String → ℤ → RandTape)
    {cm : ChunkManager} (h : MgrOk tapeOf cm) (k : ℤ) :
    (GetOrGenerateChunk tapeOf cm k).1 = GenerateChunk (tapeOf cm.masterSeed k) k := by
  unfold GetOrGenerateChunk
  cases hl : lookupChunk cm.chunks k with
  | none => rfl
  | some c => exact h _ (lookupChunk_mem hl)

/-- `GetOrGenerateChunk` never changes the master seed. -/
lemma getOrGenerateChunk_seed (tapeOf : String → ℤ → RandTape)
    (cm : ChunkManager) (k : ℤ) :
    (GetOrGenerateChunk tapeOf cm k).2.masterSeed = cm.masterSeed := by
  unfold GetOrGenerateChunk
  cases hl : lookupChunk cm.chunks k <;> rfl

/-- `GetOrGenerateChunk` preserves the cache invariant. -/
lemma getOrGenerateChunk_ok (tapeOf : String → ℤ → RandTape)
    {cm : ChunkManager} (h : MgrOk tapeOf cm) (k : ℤ) :
    MgrOk tapeOf (GetOrGenerateChunk tapeOf cm k).2 := by
  unfold GetOrGenerateChunk
  cases hl : lookupChunk cm.chunks k with
  | some c => exact h
  | none =>
    intro e he
    rcases List.mem_cons.1 he with rfl | he
    · rfl
    · exact h e he

/-- The chunk-collection loop never changes the master seed. -/
lemma getChunksLoop_seed (tapeOf : String → ℤ → RandTape) :
    ∀ (ks : List ℤ) (cm : ChunkManager),
      (getChunksLoop tapeOf ks cm).2.masterSeed = cm.masterSeed := by
  intro ks
  induction ks with
  | nil => intro cm; rfl
  | cons k ks ih =>
    intro cm
    simp only [getChunksLoop]
    rw [ih, getOrGenerateChunk_seed]

/-- The chunk-collection loop preserves the cache invariant. -/
lemma getChunksLoop_ok (tapeOf : String → ℤ → RandTape) :
    ∀ (ks : List ℤ) {cm : ChunkManager}, MgrOk tapeOf cm →
      MgrOk tapeOf (getChunksLoop tapeOf ks cm).2 := by
  intro ks
  induction ks with
  | nil => intro cm h; exact h
  | cons k ks ih =>
    intro cm h
    exact ih (getOrGenerateChunk_ok tapeOf h k)

/-- Under the cache invariant, the chunk-collection loop returns exactly the
freshly-generated chunk for every requested ID, in request order. -/
lemma getChunksLoop_fst (tapeOf : String → ℤ → RandTape) :
    ∀ (ks : List ℤ) {cm : ChunkManager}, MgrOk tapeOf cm →
      (getChunksLoop tapeOf ks cm).1
        = ks.map (fun k => GenerateChunk (tapeOf cm.masterSeed k) k) := by
  intro ks
  induction ks with
  | nil => intro cm _; rfl
  | cons k ks ih =>
    intro cm h
    simp only [getChunksLoop, List.map_cons]
    rw [getOrGenerateChunk_fst tapeOf h,
      ih (getOrGenerateChunk_ok tapeOf h k), getOrGenerateChunk_seed]

/-- Every public manager operation preserves the cache invariant. -/
lemma applyMgrOp_ok (tapeOf : String → ℤ → RandTape)
    {cm : ChunkManager} (h : MgrOk tapeOf cm) (op : MgrOp) :
    MgrOk tapeOf (applyMgrOp tapeOf cm op) := by
  cases op with
  | getOrGen k => exact getOrGenerateChunk_ok tapeOf h k
  | getRange s e =>
    simp only [applyMgrOp, GetChunksInRange]
    split
    · exact h
    · exact getChunksLoop_ok tapeOf _ h
  | genAhead x n => exact getChunksLoop_ok tapeOf _ h
  | cleanup x k =>
    intro e he
    exact h e (List.mem_of_mem_filter he)

/-- Every public manager operation preserves the master seed. -/
lemma applyMgrOp_seed (tapeOf : String → ℤ → RandTape)
    (cm : ChunkManager) (op : MgrOp) :
    (applyMgrOp tapeOf cm op).masterSeed = cm.masterSeed := by
  cases op with
  | getOrGen k => exact getOrGenerateChunk_seed tapeOf cm k
  | getRange s e =>
    simp only [applyMgrOp, GetChunksInRange]
    split
    · rfl
    · exact getChunksLoop_seed tapeOf _ cm
  | genAhead x n => exact getChunksLoop_seed tapeOf _ cm
  | cleanup x k => rfl

/-- Every reachable manager state keeps its construction seed and satisfies
the cache invariant. -/
lemma reachableManager_ok (tapeOf : String → ℤ → RandTape) (seed : String)
    (ops : List MgrOp) :
    (reachableManager tapeOf seed ops).masterSeed = seed ∧
      MgrOk tapeOf (reachableManager tapeOf seed ops) := by
  unfold reachableManager applyMgrOps
  suffices h : ∀ (cm : ChunkManager), MgrOk tapeOf cm →
      (ops.foldl (applyMgrOp tapeOf) cm).masterSeed = cm.masterSeed ∧
        MgrOk tapeOf (ops.foldl (applyMgrOp tapeOf) cm) by
    have := h (NewChunkManager seed) (by intro e he; simp [NewChunkManager] at he)
    simpa [NewChunkManager] using this
  induction ops with
  | nil => intro cm h; exact ⟨rfl, h⟩
  | cons op ops ih =>
    intro cm h
    have step := ih (applyMgrOp tapeOf cm op) (applyMgrOp_ok tapeOf h op)
    simp only [List.foldl_cons]
    exact ⟨step.1.trans (applyMgrOp_seed tapeOf cm op), step.2⟩

/-- Claim C3: `GenerateChunk` is a pure function of the PRNG behaviour
derived from `(masterSeed, chunkID)`, and `GetOrGenerateChunk` on any manager
reachable from `NewChunkManager seed` by an arbitrary operation history
returns exactly `GenerateChunk` for that seed and index; in particular two
independently constructed managers with the same seed return identical
chunks (same obstacle count, types in order, and positions) for identical
indices. -/
theorem getOrGenerateChunk_deterministic (tapeOf : String → ℤ → RandTape)
    (seed : String) (ops : List MgrOp) (chunkID : ℤ) :
    (GetOrGenerateChunk tapeOf (reachableManager tapeOf seed ops) chunkID).1
      = GenerateChunk (tapeOf seed chunkID) chunkID ∧
    ∀ ops₂ : List MgrOp,
      (GetOrGenerateChunk tapeOf (reachableManager tapeOf seed ops) chunkID).1
        = (GetOrGenerateChunk tapeOf (reachableManager tapeOf seed ops₂) chunkID).1 := by
  have main : ∀ ops₁ : List MgrOp,
      (GetOrGenerateChunk tapeOf (reachableManager tapeOf seed ops₁) chunkID).1
        = GenerateChunk (tapeOf seed chunkID) chunkID := by
    intro ops₁
    obtain ⟨hseed, hok⟩ := reachableManager_ok tapeOf seed ops₁
    rw [getOrGenerateChunk_fst tapeOf hok, hseed]
  exact ⟨main ops, fun ops₂ => (main ops).trans (main ops₂).symm⟩

/-! ### Lemmas about integer ranges and interval overlap -/

/-- Membership in the inclusive ID range. -/
lemma idRange_mem {s e k : ℤ} : k ∈ idRange s e ↔ s ≤ k ∧ k ≤ e := by
  unfold idRange
  constructor
  · intro h
    obtain ⟨j, hj, hk⟩ := List.mem_map.1 h
    rw [List.mem_range] at hj
    have hk' : s + (j : ℤ) = k := hk
    omega
  · rintro ⟨h1, h2⟩
    refine List.mem_map.2 ⟨(k - s).toNat, ?_, ?_⟩
    · rw [List.mem_range]
      omega
    · show s + ((k - s).toNat : ℤ) = k
      omega

/-- The inclusive ID range is strictly ascending. -/
lemma idRange_chain (s e : ℤ) : List.Chain' (· < ·) (idRange s e) := by
  unfold idRange
  refine List.Pairwise.chain' ?_
  rw [List.pairwise_map]
  refine (List.pairwise_lt_range _).imp ?_
  intro a b hab
  omega

/-- For `0 < b` and a nonempty closed interval, the closed interval `[s, e]`
meets the half-open interval `[a, b)` exactly when `a ≤ e` and `s < b`. -/
lemma overlapsClosed_iff {s e a b : ℚ} (hab : a < b) (hse : s ≤ e) :
    OverlapsClosed s e a b ↔ a ≤ e ∧ s < b := by
  constructor
  · rintro ⟨x, ⟨hsx, hxe⟩, hax, hxb⟩
    exact ⟨le_trans hax hxe, lt_of_le_of_lt hsx hxb⟩
  · rintro ⟨hae, hsb⟩
    refine ⟨max s a, ⟨le_max_left _ _, max_le hse hae⟩, le_max_right _ _, ?_⟩
    exact max_lt hsb hab

/-- For nonnegative `x`, the computed start/end chunk index is a floor, and
`k ≤ goTrunc (x / ChunkSize)` says chunk `k` starts at or before `x`. -/
lemma le_goTrunc_div_iff {x : ℚ} (hx : 0 ≤ x) (k : ℤ) :
    k ≤ goTrunc (x / ChunkSize) ↔ chunkStartX k ≤ x := by
  unfold goTrunc
  rw [if_pos (div_nonneg hx (by norm_num [ChunkSize]))]
  rw [Int.le_floor, le_div_iff₀ (by norm_num [ChunkSize] : (0 : ℚ) < ChunkSize)]
  unfold chunkStartX
  exact Iff.rfl

/-- For nonnegative `x`, `goTrunc (x / ChunkSize) ≤ k` says `x` lies strictly
before the end of chunk `k`. -/
lemma goTrunc_div_le_iff {x : ℚ} (hx : 0 ≤ x) (k : ℤ) :
    goTrunc (x / ChunkSize) ≤ k ↔ x < chunkEndXOf k := by
  unfold goTrunc
  rw [if_pos (div_nonneg hx (by norm_num [ChunkSize]))]
  constructor
  · intro h
    have hlt : x / ChunkSize < (k : ℚ) + 1 := by
      have := Int.lt_floor_add_one (x / ChunkSize)
      calc x / ChunkSize < (⌊x / ChunkSize⌋ : ℚ) + 1 := this
        _ ≤ (k : ℚ) + 1 := by
          have : ((⌊x / ChunkSize⌋ : ℤ) : ℚ) ≤ (k : ℚ) := by exact_mod_cast h
          linarith
    rw [div_lt_iff₀ (by norm_num [ChunkSize] : (0 : ℚ) < ChunkSize)] at hlt
    unfold chunkEndXOf
    linarith
  · intro h
    unfold chunkEndXOf at h
    by_contra hcon
    push_neg at hcon
    have hk1 : k + 1 ≤ ⌊x / ChunkSize⌋ := hcon
    have hge : ((k : ℚ) + 1) ≤ x / ChunkSize := by
      have := Int.le_floor.1 hk1
      push_cast at this
      linarith
    rw [le_div_iff₀ (by norm_num [ChunkSize] : (0 : ℚ) < ChunkSize)] at hge
    linarith

/-- Claim C2 (amended): for `0 ≤ startX < endX` on any reachable manager,
`GetChunksInRange` returns, in ascending chunk-ID order, exactly the chunks
whose extent overlaps the closed interval `[startX, endX]` (not the half-open
interval of the original claim); and for `startX ≥ endX` it returns an empty
list, not an error. -/
theorem getChunksInRange_closed_overlap (tapeOf : String → ℤ → RandTape)
    (seed : String) (ops : List MgrOp) (startX endX : ℚ)
    (h0 : 0 ≤ startX) (hlt : startX < endX) :
    ((GetChunksInRange tapeOf (reachableManager tapeOf seed ops) startX endX).1.map Chunk.id
        = idRange (goTrunc (startX / ChunkSize)) (goTrunc (endX / ChunkSize))) ∧
    (∀ k : ℤ,
      k ∈ (GetChunksInRange tapeOf (reachableManager tapeOf seed ops) startX endX).1.map Chunk.id
        ↔ OverlapsClosed startX endX (chunkStartX k) (chunkEndXOf k)) ∧
    List.Chain' (· < ·)
      ((GetChunksInRange tapeOf (reachableManager tapeOf seed ops) startX endX).1.map Chunk.id) ∧
    (∀ s e : ℚ, e ≤ s →
      (GetChunksInRange tapeOf (reachableManager tapeOf seed ops) s e).1 = []) := by
  obtain ⟨hseed, hok⟩ := reachableManager_ok tapeOf seed ops
  have hids : (GetChunksInRange tapeOf (reachableManager tapeOf seed ops) startX endX).1.map
      Chunk.id = idRange (goTrunc (startX / ChunkSize)) (goTrunc (endX / ChunkSize)) := by
    unfold GetChunksInRange
    rw [if_neg (not_le.2 hlt)]
    rw [getChunksLoop_fst tapeOf _ hok, List.map_map]
    simp [Function.comp_def, generateChunk_id]
  have hend0 : 0 ≤ endX := le_trans h0 (le_of_lt hlt)
  refine ⟨hids, ?_, ?_, ?_⟩
  · intro k
    rw [hids, idRange_mem]
    have hab : chunkStartX k < chunkEndXOf k := by
      unfold chunkStartX chunkEndXOf
      norm_num [ChunkSize]
    rw [overlapsClosed_iff hab (le_of_lt hlt)]
    rw [le_goTrunc_div_iff hend0 k, goTrunc_div_le_iff h0 k]
    exact and_comm
  · rw [hids]
    exact idRange_chain _ _
  · intro s e hse
    unfold GetChunksInRange
    rw [if_pos hse]

/-- Witness for `getChunksInRange_closed_overlap`: instantiated on a fresh
manager with range `[0, 7000)`, where the returned chunk IDs evaluate to
`[0, 1]`. -/
theorem getChunksInRange_closed_overlap_witness :
    (0 : ℚ) ≤ 0 ∧ (0 : ℚ) < 7000 ∧
    ((GetChunksInRange tapeOf0 (reachableManager tapeOf0 "w" []) 0 7000).1.map Chunk.id
      = idRange (goTrunc ((0 : ℚ) / ChunkSize)) (goTrunc ((7000 : ℚ) / ChunkSize))) ∧
    idRange (goTrunc ((0 : ℚ) / ChunkSize)) (goTrunc ((7000 : ℚ) / ChunkSize)) = [0, 1] := by
  have hg0 : goTrunc ((0 : ℚ) / ChunkSize) = 0 := by
    unfold goTrunc
    rw [if_pos (by norm_num)]
    norm_num
  have hg1 : goTrunc ((7000 : ℚ) / ChunkSize) = 1 := by
    unfold goTrunc
    rw [if_pos (by norm_num [ChunkSize])]
    rw [Int.floor_eq_iff]
    push_cast
    norm_num [ChunkSize]
  refine ⟨le_refl 0, by norm_num, ?_, ?_⟩
  · exact (getChunksInRange_closed_overlap tapeOf0 "w" [] 0 7000 (le_refl 0)
      (by norm_num)).1
  · rw [hg0, hg1]
    decide

/-- Counterexample to claim C2 as stated: on a fresh manager,
`GetChunksInRange(0, 5000)` returns chunks 0 and 1, but chunk 1's extent
`[5000, 10000)` does not overlap the half-open interval `[0, 5000)`. -/
theorem getChunksInRange_halfOpen_counterexample :
    ((GetChunksInRange tapeOf0 (NewChunkManager "s") 0 5000).1.map Chunk.id = [0, 1]) ∧
    ¬ OverlapsHalfOpen 0 5000 (chunkStartX 1) (chunkEndXOf 1) := by
  constructor
  · have hok : MgrOk tapeOf0 (NewChunkManager "s") := by
      intro e he
      simp [NewChunkManager] at he
    unfold GetChunksInRange
    rw [if_neg (by norm_num)]
    rw [getChunksLoop_fst tapeOf0 _ hok, List.map_map]
    simp only [Function.comp_def, generateChunk_id, List.map_id']
    have hg0 : goTrunc ((0 : ℚ) / ChunkSize) = 0 := by
      unfold goTrunc
      rw [if_pos (by norm_num)]
      norm_num
    have hg1 : goTrunc ((5000 : ℚ) / ChunkSize) = 1 := by
      unfold goTrunc
      rw [if_pos (by norm_num [ChunkSize])]
      rw [Int.floor_eq_iff]
      push_cast
      norm_num [ChunkSize]
    rw [hg0, hg1]
    decide
  · rintro ⟨x, ⟨hx0, hx1⟩, hx2, hx3⟩
    have h5 : (5000 : ℚ) ≤ x := by
      have : chunkStartX 1 = 5000 := by norm_num [chunkStartX, ChunkSize]
      linarith [this ▸ hx2]
    linarith

/-! ### Lemmas about the player state machine and physics step -/

/-- A grounded, alive player's jump sets the jump velocity and lifts off. -/
lemma jump_pos {p : Player} (hg : p.isGrounded = true) (ha : p.isAlive = true) :
    p.jump = { p with velocityY := -600, isGrounded := false } := by
  unfold Player.jump
  rw [if_pos (by rw [hg, ha]; rfl)]

/-- A jump on a non-grounded or non-alive player is the identity. -/
lemma jump_neg {p : Player} (h : ¬ (p.isGrounded = true ∧ p.isAlive = true)) :
    p.jump = p := by
  unfold Player.jump
  rw [if_neg]
  intro hb
  rw [Bool.and_eq_true] at hb
  exact h hb

/-- Ground branch of the physics step. -/
lemma updatePlayerPhysics_ground {p : Player}
    (h : GroundY ≤ p.y + (p.velocityY + Gravity * DeltaTime) * DeltaTime) :
    updatePlayerPhysics p
      = { p with y := GroundY, velocityY := 0, isGrounded := true } := by
  simp only [updatePlayerPhysics]
  rw [if_pos h]

/-- Airborne branch of the physics step. -/
lemma updatePlayerPhysics_air {p : Player}
    (h : ¬ GroundY ≤ p.y + (p.velocityY + Gravity * DeltaTime) * DeltaTime) :
    updatePlayerPhysics p
      = { p with
          y := p.y + (p.velocityY + Gravity * DeltaTime) * DeltaTime,
          velocityY := p.velocityY + Gravity * DeltaTime,
          isGrounded := false } := by
  simp only [updatePlayerPhysics]
  rw [if_neg h]

/-- The physics step applied to a player at rest on the ground only (re)sets
the grounded flag. -/
lemma rest_step {p : Player} (hy : p.y = GroundY) (hv : p.velocityY = 0) :
    updatePlayerPhysics p = { p with isGrounded := true } := by
  have h : GroundY ≤ p.y + (p.velocityY + Gravity * DeltaTime) * DeltaTime := by
    rw [hy, hv]
    norm_num [Gravity, DeltaTime, GroundY, TickRate]
  rw [updatePlayerPhysics_ground h]
  obtain ⟨pid, pname, px, py, pv, pg, pa⟩ := p
  simp only at hy hv
  subst hy
  subst hv
  rfl

/-- The physics step establishes (hence preserves) the grounded-rest
invariant. -/
lemma groundedRest_physics (p : Player) : GroundedRest (updatePlayerPhysics p) := by
  by_cases h : GroundY ≤ p.y + (p.velocityY + Gravity * DeltaTime) * DeltaTime
  · rw [updatePlayerPhysics_ground h]
    intro _
    rfl
  · rw [updatePlayerPhysics_air h]
    intro hg
    simp at hg

/-- The jump transition preserves the grounded-rest invariant. -/
lemma groundedRest_jump {p : Player} (h : GroundedRest p) : GroundedRest p.jump := by
  by_cases hga : p.isGrounded = true ∧ p.isAlive = true
  · rw [jump_pos hga.1 hga.2]
    intro hg
    simp at hg
  · rw [jump_neg hga]
    exact h

/-- The kill transition preserves the grounded-rest invariant. -/
lemma groundedRest_kill {p : Player} (h : GroundedRest p) : GroundedRest p.kill :=
  fun hg => h hg

/-- Any operation history preserves the grounded-rest invariant. -/
lemma groundedRest_ops (ops : List PlayerOp) :
    ∀ p : Player, GroundedRest p → GroundedRest (applyPlayerOps ops p) := by
  induction ops with
  | nil => intro p h; exact h
  | cons op ops ih =>
    intro p h
    simp only [applyPlayerOps, List.foldl_cons] at ih ⊢
    refine ih (applyPlayerOp p op) ?_
    cases op with
    | physics => exact groundedRest_physics p
    | jump => exact groundedRest_jump h
    | kill => exact groundedRest_kill h

/-- The physics step never leaves a player beyond the ground line. -/
lemma physics_y_le (p : Player) : (updatePlayerPhysics p).y ≤ GroundY := by
  by_cases h : GroundY ≤ p.y + (p.velocityY + Gravity * DeltaTime) * DeltaTime
  · rw [updatePlayerPhysics_ground h]
  · rw [updatePlayerPhysics_air h]
    exact le_of_lt (not_le.1 h)

/-- Jumping does not move the player vertically. -/
lemma jump_y (p : Player) : p.jump.y = p.y := by
  unfold Player.jump
  split <;> rfl

/-- Killing does not move the player vertically. -/
lemma kill_y (p : Player) : p.kill.y = p.y := rfl

/-- Any operation history keeps a player at or above the ground line. -/
lemma ops_y_le (ops : List PlayerOp) :
    ∀ p : Player, p.y ≤ GroundY → (applyPlayerOps ops p).y ≤ GroundY := by
  induction ops with
  | nil => intro p h; exact h
  | cons op ops ih =>
    intro p h
    simp only [applyPlayerOps, List.foldl_cons] at ih ⊢
    refine ih (applyPlayerOp p op) ?_
    cases op with
    | physics => exact physics_y_le p
    | jump => rw [applyPlayerOp, jump_y]; exact h
    | kill => rw [applyPlayerOp, kill_y]; exact h

/-- Claim C5: `Jump` changes the player state exactly when the player was
alive and grounded, in which case it sets `VelocityY = -600` and
`IsGrounded = false`; on an airborne or dead player the state is entirely
unchanged. -/
theorem jump_guard (p : Player) :
    (p.jump ≠ p ↔ p.isAlive = true ∧ p.isGrounded = true) ∧
    (p.isAlive = true → p.isGrounded = true →
      p.jump = { p with velocityY := -600, isGrounded := false }) ∧
    (¬ (p.isAlive = true ∧ p.isGrounded = true) → p.jump = p) := by
  by_cases h : p.isGrounded = true ∧ p.isAlive = true
  · obtain ⟨hg, ha⟩ := h
    have hj := jump_pos hg ha
    refine ⟨?_, fun _ _ => hj, fun hcon => absurd ⟨ha, hg⟩ hcon⟩
    rw [hj]
    constructor
    · intro _
      exact ⟨ha, hg⟩
    · intro _ heq
      have hfield := congrArg Player.isGrounded heq
      simp only [hg] at hfield
      exact Bool.false_ne_true hfield
  · have hj := jump_neg h
    refine ⟨?_, fun ha hg => absurd ⟨hg, ha⟩ h, fun _ => hj⟩
    rw [hj]
    constructor
    · intro hne
      exact absurd rfl hne
    · rintro ⟨ha, hg⟩
      exact absurd ⟨hg, ha⟩ h

/-- Witness for `jump_guard`: a freshly spawned player is alive and grounded,
and its jump concretely sets the jump velocity and clears the grounded flag. -/
theorem jump_guard_witness :
    (NewPlayer 1 "w").isAlive = true ∧ (NewPlayer 1 "w").isGrounded = true ∧
    (NewPlayer 1 "w").jump
      = { NewPlayer 1 "w" with velocityY := -600, isGrounded := false } :=
  ⟨rfl, rfl, (jump_guard (NewPlayer 1 "w")).2.1 rfl rfl⟩

/-- Claim C6: the invariant "grounded implies zero vertical velocity" holds
for every freshly created player, is preserved by jump, kill and the physics
step, and therefore holds in every reachable player state. -/
theorem grounded_rest_invariant :
    (∀ (id : ℤ) (name : String), GroundedRest (NewPlayer id name)) ∧
    (∀ p : Player, GroundedRest p →
      GroundedRest p.jump ∧ GroundedRest p.kill ∧
        GroundedRest (updatePlayerPhysics p)) ∧
    (∀ (ops : List PlayerOp) (id : ℤ) (name : String),
      GroundedRest (applyPlayerOps ops (NewPlayer id name))) := by
  refine ⟨fun id name _ => rfl, ?_, ?_⟩
  · intro p h
    exact ⟨groundedRest_jump h, groundedRest_kill h, groundedRest_physics p⟩
  · intro ops id name
    exact groundedRest_ops ops (NewPlayer id name) (fun _ => rfl)

/-- Witness for `grounded_rest_invariant`: instantiated on a fresh player and
on its jump. -/
theorem grounded_rest_invariant_witness :
    GroundedRest (NewPlayer 1 "w") ∧ GroundedRest ((NewPlayer 1 "w").jump) :=
  ⟨grounded_rest_invariant.1 1 "w",
    (grounded_rest_invariant.2.1 (NewPlayer 1 "w")
      (grounded_rest_invariant.1 1 "w")).1⟩

/-- Claim C9: an alive player at the ground line with zero vertical velocity
is a fixed point of the physics step (up to the grounded flag, which the very
first step pins to true): any positive number of steps leaves
`Y = GroundY`, `VelocityY = 0`, `IsGrounded = true`. -/
theorem grounded_rest_fixed_point (p : Player) (n : ℕ)
    (ha : p.isAlive = true) (hy : p.y = GroundY) (hv : p.velocityY = 0)
    (hn : 1 ≤ n) :
    (updatePlayerPhysics^[n] p).y = GroundY ∧
    (updatePlayerPhysics^[n] p).velocityY = 0 ∧
    (updatePlayerPhysics^[n] p).isGrounded = true := by
  obtain ⟨m, rfl⟩ : ∃ m, n = m + 1 := ⟨n - 1, by omega⟩
  have key : updatePlayerPhysics^[m + 1] p = { p with isGrounded := true } := by
    induction m with
    | zero => simpa using rest_step hy hv
    | succ m ih =>
      rw [Function.iterate_succ_apply', ih (by omega)]
      exact rest_step hy hv
  rw [key]
  exact ⟨hy, hv, rfl⟩

/-- Witness for `grounded_rest_fixed_point`: a fresh player stepped three
times. -/
theorem grounded_rest_fixed_point_witness :
    (NewPlayer 1 "w").isAlive = true ∧ (NewPlayer 1 "w").y = GroundY ∧
    (NewPlayer 1 "w").velocityY = 0 ∧ 1 ≤ 3 ∧
    ((updatePlayerPhysics^[3] (NewPlayer 1 "w")).y = GroundY ∧
      (updatePlayerPhysics^[3] (NewPlayer 1 "w")).velocityY = 0 ∧
      (updatePlayerPhysics^[3] (NewPlayer 1 "w")).isGrounded = true) :=
  ⟨rfl, rfl, rfl, by norm_num,
    grounded_rest_fixed_point (NewPlayer 1 "w") 3 rfl rfl rfl (by norm_num)⟩

/-- Claim C10 (implicit): every reachable player state satisfies
`Y ≤ GroundY`: the spawn state starts there, the physics step clamps any
overshoot back to the ground line within the same step, and jump and kill do
not move the player vertically. -/
theorem ground_clamp_invariant :
    (∀ (id : ℤ) (name : String), (NewPlayer id name).y ≤ GroundY) ∧
    (∀ p : Player, (updatePlayerPhysics p).y ≤ GroundY) ∧
    (∀ p : Player, p.y ≤ GroundY → p.jump.y ≤ GroundY ∧ p.kill.y ≤ GroundY) ∧
    (∀ (ops : List PlayerOp) (id : ℤ) (name : String),
      (applyPlayerOps ops (NewPlayer id name)).y ≤ GroundY) := by
  refine ⟨fun id name => le_refl _, physics_y_le, ?_, ?_⟩
  · intro p h
    rw [jump_y, kill_y]
    exact ⟨h, h⟩
  · intro ops id name
    exact ops_y_le ops (NewPlayer id name) (le_refl _)

/-- Witness for `ground_clamp_invariant`: instantiated on a fresh player and
its jump. -/
theorem ground_clamp_invariant_witness :
    (NewPlayer 1 "w").y ≤ GroundY ∧ ((NewPlayer 1 "w").jump).y ≤ GroundY :=
  ⟨ground_clamp_invariant.1 1 "w",
    (ground_clamp_invariant.2.2.1 (NewPlayer 1 "w")
      (ground_clamp_invariant.1 1 "w")).1⟩

/-- Claim C7: the tick step leaves a dead player's state entirely unchanged
(the loop body skips it), and the player list `BroadcastState` builds
contains exactly the alive players of the snapshot, in order. -/
theorem tick_skips_dead_and_broadcast_alive :
    (∀ p : Player, p.isAlive = false → tickOne p = p) ∧
    (∀ ps : List Player, tickStep ps = ps.map tickOne) ∧
    (∀ ps : List Player, buildPlayerStates ps
      = (ps.filter (fun p => p.isAlive)).map
          (fun p => { i := p.id, x := p.x, y := p.y })) := by
  refine ⟨?_, fun ps => rfl, ?_⟩
  · intro p h
    unfold tickOne
    rw [if_neg]
    rw [h]
    exact Bool.false_ne_true
  · intro ps
    induction ps with
    | nil => rfl
    | cons p ps ih =>
      by_cases h : p.isAlive = true
      · simp [buildPlayerStates, List.filter_cons, h, ih]
      · simp [buildPlayerStates, List.filter_cons, h, ih]

/-- Witness for `tick_skips_dead_and_broadcast_alive`: a killed player is
untouched by the tick body, and a two-player snapshot with one dead player
broadcasts exactly the alive one. -/
theorem tick_skips_dead_witness :
    ((NewPlayer 1 "w").kill).isAlive = false ∧
    tickOne ((NewPlayer 1 "w").kill) = (NewPlayer 1 "w").kill ∧
    buildPlayerStates [NewPlayer 1 "w", (NewPlayer 2 "v").kill]
      = [{ i := 1, x := 100, y := 440 }] :=
  ⟨rfl, tick_skips_dead_and_broadcast_alive.1 _ rfl, rfl⟩

/-- Claim C8: a state or chunk broadcast appends the one encoded message to
every registered client queue that has room (fewer than 10 entries), leaves
every full queue unchanged, and the outcome at each position depends only on
that client's own queue; the modelled call is a total function, reflecting
the non-blocking try-send. -/
theorem broadcast_backpressure_isolation (α : Type) (msg : α)
    (clients : List (ℤ × List α)) :
    (∀ i : ℕ, (broadcastToClients msg clients)[i]?
        = (clients[i]?).map (fun c =>
            (c.1, if c.2.length < sendChanCapacity then c.2 ++ [msg] else c.2))) ∧
    (∀ c ∈ clients, c.2.length < sendChanCapacity →
      (c.1, c.2 ++ [msg]) ∈ broadcastToClients msg clients) ∧
    (∀ c ∈ clients, ¬ c.2.length < sendChanCapacity →
      (c.1, c.2) ∈ broadcastToClients msg clients) ∧
    (∀ clients₂ : List (ℤ × List α), ∀ i : ℕ, clients[i]? = clients₂[i]? →
      (broadcastToClients msg clients)[i]?
        = (broadcastToClients msg clients₂)[i]?) := by
  have hpt : ∀ (l : List (ℤ × List α)) (i : ℕ), (broadcastToClients msg l)[i]?
      = (l[i]?).map (fun c =>
          (c.1, if c.2.length < sendChanCapacity then c.2 ++ [msg] else c.2)) := by
    intro l i
    unfold broadcastToClients trySend
    rw [List.getElem?_map]
  refine ⟨hpt clients, ?_, ?_, ?_⟩
  · intro c hc hlen
    refine List.mem_map.2 ⟨c, hc, ?_⟩
    unfold trySend
    rw [if_pos hlen]
  · intro c hc hlen
    refine List.mem_map.2 ⟨c, hc, ?_⟩
    unfold trySend
    rw [if_neg hlen]
  · intro clients₂ i h
    rw [hpt, hpt, h]

/-- Witness for `broadcast_backpressure_isolation`: one client with a full
queue of 10 keeps it unchanged while a second client with an empty queue
receives the message. -/
theorem broadcast_backpressure_isolation_witness :
    ¬ (List.replicate 10 (0 : ℕ)).length < sendChanCapacity ∧
    ([] : List ℕ).length < sendChanCapacity ∧
    (1, List.replicate 10 (0 : ℕ))
      ∈ broadcastToClients 7 [(1, List.replicate 10 (0 : ℕ)), (2, [])] ∧
    (2, ([] ++ [7] : List ℕ))
      ∈ broadcastToClients 7 [(1, List.replicate 10 (0 : ℕ)), (2, [])] := by
  refine ⟨by decide, by decide, ?_, ?_⟩
  · exact (broadcast_backpressure_isolation ℕ 7
      [(1, List.replicate 10 (0 : ℕ)), (2, [])]).2.2.1
      (1, List.replicate 10 (0 : ℕ)) (by simp) (by decide)
  · exact (broadcast_backpressure_isolation ℕ 7
      [(1, List.replicate 10 (0 : ℕ)), (2, [])]).2.1
      (2, []) (by simp) (by decide)
